import Mathlib

/-!
Verification of the golang-blockchain repository (an educational UTXO
blockchain node in Go) against its natural-language specification.

The Go source is shallowly embedded: byte slices become `List Nat`,
Go `int`/`int64` become `Int` (with explicit truncation where the code
serializes to fixed-width words), pure functions become Lean functions,
panics become `Option.none`, and the badger key-value store becomes an
association list threaded through the operations in store order.

Library primitives that the code calls but does not define — SHA-256,
gob serialization, base58, RIPEMD-160, ECDSA — are abstracted as
function parameters (collected in the structure `Prims`); every theorem
below is proved for all instantiations of those parameters.
-/

namespace GoChain

/-- Byte strings (`[]byte` in Go) are modelled as lists of naturals. -/
abbrev Bytes := List Nat

/-- Reading a byte slice as an unsigned big-endian integer — the model of
`big.Int.SetBytes`. -/
def bytesToNat (l : Bytes) : Nat :=
  l.foldl (fun a b => a * 256 + b) 0

/-- The eight big-endian bytes of `n % 2^64`. -/
def beBytes8 (n : Nat) : Bytes :=
  [n / 2 ^ 56 % 256, n / 2 ^ 48 % 256, n / 2 ^ 40 % 256, n / 2 ^ 32 % 256,
   n / 2 ^ 24 % 256, n / 2 ^ 16 % 256, n / 2 ^ 8 % 256, n % 256]

/-- The bytes of a Go string (`[]byte(s)`, UTF-8). -/
def strBytes (s : String) : Bytes :=
  s.toUTF8.toList.map (fun b => b.toNat)

/-! ## Transaction data model (blockchain/tx.go, blockchain/transaction.go) -/

/-- A transaction output: `TxOutput { Value int; PubKeyHash []byte }`. -/
structure TxOutput where
  value : Int
  pubKeyHash : Bytes
deriving DecidableEq

/-- A transaction input:
`TxInput { ID []byte; Out int; Signature []byte; PubKey []byte }`. -/
structure TxInput where
  id : Bytes
  out : Int
  signature : Bytes
  pubKey : Bytes
deriving DecidableEq

/-- A transaction:
`Transaction { ID []byte; Inputs []TxInput; Outputs []TxOutput }`. -/
structure Transaction where
  id : Bytes
  inputs : List TxInput
  outputs : List TxOutput
deriving DecidableEq

/-- The block stored on the chain (blockchain/block.go, final version):
`Block { Timestamp int64; Hash; Transactions; PrevHash; Nonce int; Height int }`.
Transactions are kept abstract for the store-level claims. -/
structure Block where
  timestamp : Int
  hash : Bytes
  transactions : List Transaction
  prevHash : Bytes
  nonce : Int
  height : Int
deriving DecidableEq

/-- The foreign primitives the Go code calls: SHA-256, the gob encodings of
transactions and blocks, base58 decoding, RIPEMD160∘SHA256 (`wallet.PublicKeyHash`),
ECDSA verification over reconstructed `(x, y)` points and `(r, s)` scalars,
and the signature bytes `r.Bytes() ++ s.Bytes()` that `ecdsa.Sign` produces for
the n-th input over a given digest. -/
structure Prims where
  sha : Bytes → Bytes
  serTx : Transaction → Bytes
  b58 : Bytes → Bytes
  hash160 : Bytes → Bytes
  ecdsaVerify : Nat → Nat → Bytes → Nat → Nat → Bool
  mkSig : Nat → Bytes → Bytes

/-- `Transaction.IsCoinbase`: exactly one input, with empty previous ID and
output index `-1`. -/
def isCoinbase (tx : Transaction) : Bool :=
  match tx.inputs with
  | [i] => i.id.isEmpty && (i.out == -1)
  | _ => false

/-- `TxOutput.IsLockedWithKey`: byte-equality of the stored lock with the key hash. -/
def isLockedWithKey (o : TxOutput) (pkh : Bytes) : Bool :=
  o.pubKeyHash == pkh

/-- The pubKeyHash that `TxOutput.Lock` stores: base58-decode the address and
keep bytes `1 .. len-5` (dropping the version byte and the 4-byte checksum).
(Go panics when the decoded address is shorter than 5 bytes; none of the
claims touch that case.) -/
def lockPubKeyHash (P : Prims) (address : Bytes) : Bytes :=
  let d := P.b58 address
  (d.drop 1).take (d.length - 5)

/-- `NewTXOutput(value, address)`: an output locked to the decoded address. -/
def newTXOutput (P : Prims) (value : Int) (address : String) : TxOutput :=
  { value := value, pubKeyHash := lockPubKeyHash P (strBytes address) }

/-- `Transaction.SetID`: gob-encode the transaction as-is and store the SHA-256
digest in the `ID` field. -/
def setID (P : Prims) (tx : Transaction) : Transaction :=
  { tx with id := P.sha (P.serTx tx) }

/-- `CoinbaseTx(to, data)`: when `data` is empty it defaults to
`"Coin to: <to>"`; the single input is `{[]byte{}, -1, nil, []byte(data)}`,
the single output is `NewTXOutput(100, to)`, and the ID is set by `SetID`. -/
def coinbaseTx (P : Prims) (toAddr data : String) : Transaction :=
  let d := if data = "" then "Coin to: " ++ toAddr else data
  let txIN : TxInput := { id := [], out := -1, signature := [], pubKey := strBytes d }
  let txOUT := newTXOutput P 100 toAddr
  setID P { id := [], inputs := [txIN], outputs := [txOUT] }

/-! ## Merkle tree (blockchain/merkle.go) -/

/-- One pass of the pairing loop body
`for j := 0; j < len(nodes); j += 2 { NewMerkleNode(&nodes[j], &nodes[j+1], nil) }`:
adjacent nodes are combined as `SHA256(left.Data ++ right.Data)`; when the level
has odd length the access `nodes[j+1]` is out of range, which in Go is a runtime
panic, modelled as `none`. -/
def merklePair (sha : Bytes → Bytes) : List Bytes → Option (List Bytes)
  | [] => some []
  | [_] => none
  | a :: b :: rest => (merklePair sha rest).map (fun l => sha (a ++ b) :: l)

/-- The outer loop `for i := 0; i < len(data)/2; i++`: run the pairing pass a
fixed number of times. -/
def merkleIter (sha : Bytes → Bytes) : Nat → List Bytes → Option (List Bytes)
  | 0, ns => some ns
  | k + 1, ns =>
    match merklePair sha ns with
    | none => none
    | some l => merkleIter sha k l

/-- `NewMerkleTree(data)`, returning the root node's hash. The leaf list is
padded with a copy of its last element when its length is odd (`data` is
reassigned, so the loop bound `len(data)/2` uses the padded length); leaves are
`SHA256(dat)`; then the pairing pass runs `len(data)/2` times and `nodes[0]` is
returned. Go panics — modelled as `none` — when the input is empty (the final
`nodes[0]`), or whenever a pairing pass meets a level of odd length. -/
def newMerkleTree (sha : Bytes → Bytes) (data : List Bytes) : Option Bytes :=
  match data with
  | [] => none
  | d :: ds =>
    let orig := d :: ds
    let padded := if orig.length % 2 ≠ 0 then orig ++ [orig.getLastD []] else orig
    match merkleIter sha (padded.length / 2) (padded.map sha) with
    | none => none
    | some ns => ns.head?

/-! ## Proof of Work (blockchain/proof.go) -/

/-- The block shape that `proof.go` compiles against (blockchain/block.go):
`Block { Hash []byte; Data []byte; PrevHash []byte; Nonce int }`. -/
structure DataBlock where
  hash : Bytes
  data : Bytes
  prevHash : Bytes
  nonce : Int
deriving DecidableEq

/-- The system-wide mining difficulty: `const Difficulty = 12`. -/
def Difficulty : Nat := 12

/-- `ToHex(num)`: the 8-byte big-endian two's-complement encoding that
`binary.Write(buffer, binary.BigEndian, num)` produces for an `int64`. -/
def toHex (num : Int) : Bytes :=
  beBytes8 (num % (2 : Int) ^ 64).toNat

/-- The proof-of-work target built by `NewProof`: `1 << (256 - Difficulty)`. -/
def powTarget : Nat :=
  Nat.shiftLeft 1 (256 - Difficulty)

/-- `ProofOfWork.InitData(nonce)` evaluated at the block's own nonce:
`PrevHash ++ Data ++ ToHex(nonce) ++ ToHex(Difficulty)` joined with no
separator. -/
def powInitData (b : DataBlock) : Bytes :=
  b.prevHash ++ b.data ++ toHex b.nonce ++ toHex (Int.ofNat Difficulty)

/-- `ProofOfWork.Validate()`: recompute `SHA256(InitData(block.Nonce))`, read it
with `big.Int.SetBytes`, and test `Cmp(target) == -1`, i.e. hash < target. -/
def powValidate (sha : Bytes → Bytes) (b : DataBlock) : Bool :=
  decide (bytesToNat (sha (powInitData b)) < powTarget)

/-! ## Chain store (blockchain/blockchain.go, final version) -/

/-- The badger store: an association list of key/value byte strings; a `Set`
conses, a `Get` returns the most recent binding. -/
abbrev DB := List (Bytes × Bytes)

/-- `txn.Get(key)` — the most recent binding of the key, `none` when absent. -/
def dbGet : DB → Bytes → Option Bytes
  | [], _ => none
  | (k, v) :: rest, key => if k = key then some v else dbGet rest key

/-- `txn.Set(key, value)`. -/
def dbSet (db : DB) (k v : Bytes) : DB :=
  (k, v) :: db

/-- The tip-pointer key `"lh"` (bytes `l`, `h`). -/
def lhKey : Bytes := [108, 104]

/-- The in-memory chain handle:
`BlockChain { LastHash []byte; Database *badger.DB }`. -/
structure ChainState where
  lastHash : Bytes
  db : DB
deriving DecidableEq

/-- `BlockChain.AddBlock(block)` (the network-facing one, with the
longest-chain rule). If the block's hash is already a key the transaction
returns early and nothing changes. Otherwise the serialized block is stored
under its hash; then the current tip is read through `"lh"` and deserialized,
and only if `lastBlock.Height < block.Height` are both `"lh"` and the
in-memory `LastHash` moved to `block.Hash`. A failing `Get` of `"lh"` or of
the tip block panics (`Handle`), modelled as `none`. -/
def addBlock (ser : Block → Bytes) (deser : Bytes → Block)
    (st : ChainState) (b : Block) : Option ChainState :=
  match dbGet st.db b.hash with
  | some _ => some st
  | none =>
    let db1 := dbSet st.db b.hash (ser b)
    match dbGet db1 lhKey with
    | none => none
    | some lastHash =>
      match dbGet db1 lastHash with
      | none => none
      | some lastBlockData =>
        let lastBlock := deser lastBlockData
        if lastBlock.height < b.height then
          some { lastHash := b.hash, db := dbSet db1 lhKey b.hash }
        else
          some { st with db := db1 }

/-! ## UTXO set (blockchain/utxo.go): `FindSpendableOutputs` -/

/-- The `"utxo-"`-prefixed region of the store, with the prefix already
trimmed: pairs of raw transaction ID and that transaction's still-unspent
outputs, in badger iteration order. -/
abbrev UTXOStore := List (Bytes × List TxOutput)

/-- `unspentOuts[txID] = append(unspentOuts[txID], outIdx)`: append an output
index under a transaction ID in the selection map. -/
def selAdd (sel : List (Bytes × List Nat)) (k : Bytes) (i : Nat) :
    List (Bytes × List Nat) :=
  match sel with
  | [] => [(k, [i])]
  | (k', l) :: rest =>
    if k' = k then (k', l ++ [i]) :: rest else (k', l) :: selAdd rest k i

/-- The inner loop of `UTXOSet.FindSpendableOutputs` over one transaction's
outputs: an output is selected iff it is locked with the key AND the
accumulator is still below the amount. -/
def fsoOuts (pkh : Bytes) (amount : Int) (txid : Bytes) :
    List TxOutput → Nat → Int → List (Bytes × List Nat) →
    Int × List (Bytes × List Nat)
  | [], _, acc, sel => (acc, sel)
  | o :: rest, idx, acc, sel =>
    if isLockedWithKey o pkh && decide (acc < amount) then
      fsoOuts pkh amount txid rest (idx + 1) (acc + o.value) (selAdd sel txid idx)
    else
      fsoOuts pkh amount txid rest (idx + 1) acc sel

/-- The outer loop of `UTXOSet.FindSpendableOutputs` over the `"utxo-"`
entries. -/
def fsoEntries (pkh : Bytes) (amount : Int) :
    UTXOStore → Int → List (Bytes × List Nat) → Int × List (Bytes × List Nat)
  | [], acc, sel => (acc, sel)
  | (txid, outs) :: rest, acc, sel =>
    let r := fsoOuts pkh amount txid outs 0 acc sel
    fsoEntries pkh amount rest r.1 r.2

/-- `UTXOSet.FindSpendableOutputs(pubKeyHash, amount)` over the modelled UTXO
region of the store: returns the accumulated value and the selection map. -/
def findSpendableOutputs (utxo : UTXOStore) (pkh : Bytes) (amount : Int) :
    Int × List (Bytes × List Nat) :=
  fsoEntries pkh amount utxo 0 []

/-- Lookup of a UTXO entry by raw transaction ID (first match). -/
def utxoGet : UTXOStore → Bytes → Option (List TxOutput)
  | [], _ => none
  | (k, outs) :: rest, key => if k = key then some outs else utxoGet rest key

/-- The value of the output designated by a `(txid, index)` pair of the
selection (0 when the pair dangles — never the case for selections the scan
builds). -/
def valueAt (utxo : UTXOStore) (k : Bytes) (i : Nat) : Int :=
  match utxoGet utxo k with
  | none => 0
  | some outs =>
    match outs.get? i with
    | none => 0
    | some o => o.value

/-- The total value of the outputs designated by a selection map. -/
def selectionSum (utxo : UTXOStore) (sel : List (Bytes × List Nat)) : Int :=
  (sel.map (fun p => (p.2.map (fun i => valueAt utxo p.1 i)).sum)).sum

/-- The total value locked to a key hash in one output list. -/
def lockedTotalIn (pkh : Bytes) (outs : List TxOutput) : Int :=
  (outs.filter (fun o => isLockedWithKey o pkh)).foldr (fun o a => o.value + a) 0

/-- The total value locked to a key hash across the whole UTXO region. -/
def lockedTotal (utxo : UTXOStore) (pkh : Bytes) : Int :=
  (utxo.map (fun p => lockedTotalIn pkh p.2)).sum

/-! ## Mining trigger (network/network.go): `MineTx` -/

/-- The transaction list that `MineTx` hands to `chain.MineBlock`: the mempool
transactions (in iteration order) that `chain.VerifyTransaction` accepts, with
`CoinbaseTx(mineAddress, "")` appended via `txs = append(txs, cbTx)`; when no
mempool transaction verifies, `MineTx` prints and returns without mining
(`none`). -/
def mineTxBlockTxs (P : Prims) (verifyTx : Transaction → Bool)
    (pool : List Transaction) (mineAddress : String) : Option (List Transaction) :=
  let txs := pool.filter (fun t => verifyTx t)
  if txs.length = 0 then none
  else some (txs ++ [coinbaseTx P mineAddress ""])

/-! ## Transaction builder (blockchain/transaction.go): `NewTransaction` -/

/-- `NewTransaction(from, to, amount, UTXO)`. The sender's wallet public key
`wPub` and the UTXO region stand in for the wallet file and the store; the
final `SignTransaction` call (which walks the chain for previous transactions
and may panic) is abstracted as `signTx`. `acc < amount` panics with
"Not enough funds" — modelled as `none`; otherwise one input per selected
output index (`Signature = nil`, `PubKey = w.PublicKey`), one payment output
`NewTXOutput(amount, to)`, a change output `NewTXOutput(acc-amount, from)`
exactly when `acc > amount`, then `SetID` and signing. -/
def newTransaction (P : Prims) (signTx : Transaction → Option Transaction)
    (wPub : Bytes) (utxo : UTXOStore) (fromAddr toAddr : String)
    (amount : Int) : Option Transaction :=
  let pubKeyHash := P.hash160 wPub
  let r := findSpendableOutputs utxo pubKeyHash amount
  let acc := r.1
  let validOutputs := r.2
  if acc < amount then none
  else
    let inputs := (validOutputs.map (fun p =>
      p.2.map (fun outIdx =>
        ({ id := p.1, out := Int.ofNat outIdx, signature := [], pubKey := wPub } : TxInput)))).flatten
    let outputs := [newTXOutput P amount toAddr] ++
      (if amount < acc then [newTXOutput P (acc - amount) fromAddr] else [])
    let tx := setID P { id := [], inputs := inputs, outputs := outputs }
    signTx tx

/-! ## Signing and verification (blockchain/transaction.go): `Sign`, `Verify` -/

/-- Replace the element at one position of a list (other positions and
out-of-range indices untouched) — the model of an in-place write to a
slice element. -/
def listModify (f : α → α) : List α → Nat → List α
  | [], _ => []
  | a :: rest, 0 => f a :: rest
  | a :: rest, n + 1 => a :: listModify f rest n

/-- Apply `listModify` to the inputs of a transaction. -/
def txModInput (tx : Transaction) (n : Nat) (f : TxInput → TxInput) : Transaction :=
  { tx with inputs := listModify f tx.inputs n }

/-- `Transaction.Hash()`: clear the ID field of a copy, gob-serialize,
SHA-256. -/
def txHash (P : Prims) (tx : Transaction) : Bytes :=
  P.sha (P.serTx { tx with id := [] })

/-- `Transaction.TrimmedCopy()`: every input keeps its `ID` and `Out` but gets
`Signature = nil` and `PubKey = nil`; outputs and the transaction ID are kept. -/
def trimmedCopy (tx : Transaction) : Transaction :=
  { id := tx.id
  , inputs := tx.inputs.map (fun i =>
      { id := i.id, out := i.out, signature := [], pubKey := [] })
  , outputs := tx.outputs.map (fun o =>
      { value := o.value, pubKeyHash := o.pubKeyHash }) }

/-- The digest signed (and checked) for input `n`: the hash of the trimmed
copy whose `n`-th input additionally carries the referenced previous output's
`PubKeyHash` in its `PubKey` field. -/
def signingHash (P : Prims) (tx : Transaction) (n : Nat) (pkh : Bytes) : Bytes :=
  txHash P (txModInput (trimmedCopy tx) n (fun i => { i with pubKey := pkh }))

/-- What `Verify`'s loop body checks for the `n`-th input `i` (spec reading of
one iteration): split `i.Signature` into halves `(r, s)` and `i.PubKey` into
halves `(x, y)` as big-endian integers and run ECDSA verification against the
signing digest for `n` built from the referenced previous output's
`PubKeyHash` (`false` when the reference dangles — the loop itself panics
there, which the main theorem excludes by hypothesis). -/
def inputVerifies (P : Prims) (prevs : Bytes → Transaction) (tx : Transaction)
    (i : TxInput) (n : Nat) : Bool :=
  match (prevs i.id).outputs.get? i.out.toNat with
  | none => false
  | some o =>
    let digest := signingHash P tx n o.pubKeyHash
    let sl := i.signature.length
    let kl := i.pubKey.length
    P.ecdsaVerify (bytesToNat (i.pubKey.take (kl / 2)))
      (bytesToNat (i.pubKey.drop (kl / 2))) digest
      (bytesToNat (i.signature.take (sl / 2)))
      (bytesToNat (i.signature.drop (sl / 2)))

/-- The loop of `Transaction.Verify` over `tx.Inputs`, threading the shared
copy `c` exactly as the Go code mutates `txCopy`: set the `n`-th copied
input's `Signature` to nil and its `PubKey` to the previous output's
`PubKeyHash`, hash, store the digest in `c.ID`, clear the `PubKey` again, and
check the ECDSA signature; `prevTx.Outputs[in.Out]` with a negative or
too-large index is a Go panic, `none`. `k` counts the remaining iterations. -/
def verifyLoop (P : Prims) (prevs : Bytes → Transaction) (tx : Transaction) :
    Nat → Nat → Transaction → Option Bool
  | 0, _, _ => some true
  | k + 1, n, c =>
    match tx.inputs.get? n with
    | none => some true
    | some i =>
      let prevTx := prevs i.id
      match prevTx.outputs.get? i.out.toNat with
      | none => none
      | some o =>
        if i.out < 0 then none
        else
          let c1 := txModInput c n (fun j => { j with signature := [], pubKey := o.pubKeyHash })
          let digest := txHash P c1
          let c2 := { c1 with id := digest }
          let c3 := txModInput c2 n (fun j => { j with pubKey := [] })
          let sl := i.signature.length
          let kl := i.pubKey.length
          if P.ecdsaVerify (bytesToNat (i.pubKey.take (kl / 2)))
              (bytesToNat (i.pubKey.drop (kl / 2))) digest
              (bytesToNat (i.signature.take (sl / 2)))
              (bytesToNat (i.signature.drop (sl / 2))) then
            verifyLoop P prevs tx k (n + 1) c3
          else
            some false

/-- `Transaction.Verify(prevTXs)`. Coinbase transactions return `true`
immediately. Otherwise the code panics — `none` — when some input references
a previous transaction whose entry in the map is the zero value (`ID == nil`);
then the loop above runs over a fresh trimmed copy. The map is modelled as the
total function `prevs` from raw input IDs (the hex keying is injective) with
the zero transaction for absent keys. -/
def transactionVerify (P : Prims) (tx : Transaction)
    (prevs : Bytes → Transaction) : Option Bool :=
  if isCoinbase tx then some true
  else if tx.inputs.any (fun i => ((prevs i.id).id).isEmpty) then none
  else verifyLoop P prevs tx tx.inputs.length 0 (trimmedCopy tx)

/-- The loop of `Transaction.Sign` over `txCopy.Inputs`, threading the shared
copy `c` as in `verifyLoop` and additionally writing the produced signature
bytes into the ORIGINAL transaction's `n`-th input, threaded as `cur`. -/
def signLoop (P : Prims) (prevs : Bytes → Transaction) :
    Nat → Nat → Transaction → Transaction → Option Transaction
  | 0, _, _, cur => some cur
  | k + 1, n, c, cur =>
    match c.inputs.get? n with
    | none => some cur
    | some i =>
      let prevTx := prevs i.id
      match prevTx.outputs.get? i.out.toNat with
      | none => none
      | some o =>
        if i.out < 0 then none
        else
          let c1 := txModInput c n (fun j => { j with signature := [], pubKey := o.pubKeyHash })
          let digest := txHash P c1
          let c2 := { c1 with id := digest }
          let c3 := txModInput c2 n (fun j => { j with pubKey := [] })
          let cur1 := txModInput cur n (fun j => { j with signature := P.mkSig n digest })
          signLoop P prevs k (n + 1) c3 cur1

/-- `Transaction.Sign(privKey, prevTXs)`: returns the mutated transaction.
Coinbase transactions return unchanged; a zero-valued previous transaction
panics (`none`); otherwise the loop runs over the trimmed copy's inputs. -/
def transactionSign (P : Prims) (tx : Transaction)
    (prevs : Bytes → Transaction) : Option Transaction :=
  if isCoinbase tx then some tx
  else if tx.inputs.any (fun i => ((prevs i.id).id).isEmpty) then none
  else signLoop P prevs (trimmedCopy tx).inputs.length 0 (trimmedCopy tx) tx

/-! ## Concrete instantiations of the abstract primitives, used by the
closed witness and counterexample theorems below. -/

/-- A concrete, easily evaluable instantiation of the foreign primitives. -/
def P0 : Prims where
  sha := fun l => [l.length % 256]
  serTx := fun t => t.id ++ [t.inputs.length, t.outputs.length]
  b58 := fun l => l
  hash160 := fun l => l
  ecdsaVerify := fun _ _ _ _ _ => true
  mkSig := fun n d => n :: d

/-- A concrete non-coinbase transaction used by witnesses. -/
def tx0 : Transaction :=
  { id := [1], inputs := [], outputs := [] }

/-- A concrete previous transaction with one spendable output. -/
def prevTxA : Transaction :=
  { id := [7], inputs := [], outputs := [{ value := 50, pubKeyHash := [9] }] }

/-- A concrete previous-transactions map covering key `[7]` (absent keys give
the zero transaction, as a Go map does). -/
def prevs0 : Bytes → Transaction :=
  fun k => if k = [7] then prevTxA else { id := [], inputs := [], outputs := [] }

/-- A concrete non-coinbase transaction spending `prevTxA`'s output 0. -/
def tx1 : Transaction :=
  { id := [3]
  , inputs := [{ id := [7], out := 0, signature := [1, 2], pubKey := [4, 5] }]
  , outputs := [] }

/-- The per-input verification results from index `n` on, conjoined — the
specification shape that the `Verify` loop is proved to compute. -/
def allVerifyFrom (P : Prims) (prevs : Bytes → Transaction) (tx : Transaction) :
    Nat → Nat → Bool
  | 0, _ => true
  | k + 1, n =>
    match tx.inputs.get? n with
    | none => true
    | some i => inputVerifies P prevs tx i n && allVerifyFrom P prevs tx k (n + 1)

/-- A concrete serializer and deserializer for the witnesses. -/
def ser0 : Block → Bytes := fun b => b.hash ++ [b.height.toNat]

/-- A concrete deserializer: reads the shape `ser0` writes (only the height
matters to the store logic exercised by the witnesses). -/
def deser0 : Bytes → Block := fun l =>
  { timestamp := 0, hash := l.dropLast, transactions := [], prevHash := [],
    nonce := 0, height := Int.ofNat (l.getLastD 0) }

/-- A concrete genesis-like tip block. -/
def blk0 : Block :=
  { timestamp := 0, hash := [1], transactions := [], prevHash := [], nonce := 0,
    height := 0 }

/-- A concrete incoming block of height 1 extending `blk0`. -/
def blk1 : Block :=
  { timestamp := 0, hash := [2], transactions := [], prevHash := [1], nonce := 0,
    height := 1 }

/-- A concrete chain state whose tip is `blk0`. -/
def st0 : ChainState :=
  { lastHash := [1], db := [(lhKey, [1]), ([1], ser0 blk0)] }

/-- A concrete UTXO region with distinct keys for the C7 witness. -/
def utxo1 : UTXOStore :=
  [([1], [{ value := 5, pubKeyHash := [9] }, { value := 7, pubKeyHash := [8] }]),
   ([2], [{ value := 4, pubKeyHash := [9] }])]

/-! ## C1: Merkle tree construction -/

/-- C1: the claim says `NewMerkleTree` terminates with a single 32-byte root
for every non-empty input, duplicating the last node of odd intermediate
levels, and in particular yields a root for a 6-element input. The code never
re-pads an intermediate level: on 6 leaves the first pass leaves 3 nodes and
the second pass reads `nodes[j+1]` past the end — an index-out-of-range panic,
`none` in the model — for every choice of hash function. -/
theorem merkle_c1_six_input_panic (sha : Bytes → Bytes) :
    newMerkleTree sha [[0], [1], [2], [3], [4], [5]] = none := rfl

/-! ## C2: Proof-of-Work verification -/

/-- C2: `ProofOfWork.Validate` returns true iff the SHA-256 digest of
`prevHash ++ body ++ beInt8(nonce) ++ beInt8(difficulty)`, read as a 256-bit
big-endian integer, is strictly below the target `1 <<< (256 - difficulty)`
with the system-wide difficulty 12. -/
theorem pow_c2_validate_iff (sha : Bytes → Bytes) (b : DataBlock) :
    powValidate sha b = true ↔
      bytesToNat (sha (b.prevHash ++ b.data ++ toHex b.nonce ++ toHex 12)) <
        2 ^ (256 - 12) := by
  have ht : powTarget = 2 ^ (256 - 12) := by
    simp [powTarget, Difficulty, Nat.shiftLeft_eq]
  simp only [powValidate, powInitData, Difficulty, Int.ofNat_eq_coe, ht,
    decide_eq_true_eq]
  norm_num

/-! ## C10: determinism of CoinbaseTx -/

/-- C10: `CoinbaseTx` is a pure function of `(to, data)` — it draws no
randomness and no clock — so two calls on the same arguments give
byte-identical serializations and equal IDs; an empty `data` is replaced by
the fixed string `"Coin to: <to>"`, so the empty-data call coincides with the
substituted one. -/
theorem coinbase_c10_deterministic (P : Prims) (toAddr data : String)
    (t1 t2 : Transaction)
    (h1 : t1 = coinbaseTx P toAddr data) (h2 : t2 = coinbaseTx P toAddr data) :
    P.serTx t1 = P.serTx t2 ∧ t1.id = t2.id ∧
      (data = "" → t1 = coinbaseTx P toAddr ("Coin to: " ++ toAddr)) := by
  subst h1; subst h2
  refine ⟨rfl, rfl, fun hd => ?_⟩
  subst hd
  have hne : ¬("Coin to: " ++ toAddr = "") := by
    intro h
    have hlen := congrArg String.length h
    rw [String.length_append] at hlen
    have h9 : ("Coin to: ").length = 9 := rfl
    rw [h9] at hlen
    simp at hlen
  simp [coinbaseTx, hne]

/-- Witness for C10 at `P0`, recipient `"a"`, empty data. -/
theorem coinbase_c10_deterministic_witness :
    P0.serTx (coinbaseTx P0 "a" "") = P0.serTx (coinbaseTx P0 "a" "") ∧
      (coinbaseTx P0 "a" "").id = (coinbaseTx P0 "a" "").id ∧
      ("" = "" → coinbaseTx P0 "a" "" = coinbaseTx P0 "a" ("Coin to: " ++ "a")) :=
  coinbase_c10_deterministic P0 "a" "" _ _ rfl rfl

/-! ## C5: position of the coinbase transaction in MineTx -/

/-- C5 counterexample: the claim says the coinbase paying the miner is
PREPENDED, i.e. first in the list handed to `chain.MineBlock`. With one
verifying mempool transaction the list is `[tx0, coinbase]` — the coinbase is
last, and the first element is not the coinbase. -/
theorem minetx_c5_coinbase_not_first :
    mineTxBlockTxs P0 (fun _ => true) [tx0] "miner" =
        some [tx0, coinbaseTx P0 "miner" ""] ∧
      tx0 ≠ coinbaseTx P0 "miner" "" := by
  refine ⟨rfl, fun h => ?_⟩
  have h2 := congrArg (fun t => t.inputs.length) h
  simp [tx0, coinbaseTx, setID, newTXOutput] at h2

/-- C5 amended: the coinbase paying the miner's address is APPENDED — the
list handed to `chain.MineBlock` is the verifying mempool transactions
followed by the coinbase as its last element. -/
theorem minetx_c5_coinbase_last (P : Prims) (verifyTx : Transaction → Bool)
    (pool : List Transaction) (addr : String) (txs : List Transaction)
    (h : mineTxBlockTxs P verifyTx pool addr = some txs) :
    txs = pool.filter (fun t => verifyTx t) ++ [coinbaseTx P addr ""] ∧
      txs.getLast? = some (coinbaseTx P addr "") := by
  unfold mineTxBlockTxs at h
  simp only [] at h
  split at h
  · exact absurd h (by simp)
  · cases h
    exact ⟨rfl, List.getLast?_concat _⟩

/-- Witness for the amended C5: one always-verifying mempool transaction. -/
theorem minetx_c5_coinbase_last_witness :
    [tx0, coinbaseTx P0 "miner" ""] =
        List.filter (fun t => (fun _ => true) t) [tx0] ++ [coinbaseTx P0 "miner" ""] ∧
      List.getLast? [tx0, coinbaseTx P0 "miner" ""] = some (coinbaseTx P0 "miner" "") :=
  minetx_c5_coinbase_last P0 (fun _ => true) [tx0] "miner" _ rfl

/-! ## C6: change output of the transaction builder -/

/-- C6: a successful `NewTransaction` has exactly one payment output of value
`amount` locked to the recipient; it has no change output when `acc = amount`
and exactly one change output of value `acc - amount` locked to the sender
when `acc > amount`; and when `acc < amount` it fails ("Not enough funds")
and produces no transaction. The final signing step only rewrites input
signatures (hypothesis `hsign`, proved of the code in the C8 theorem's
development). -/
theorem newtx_c6_outputs (P : Prims) (signTx : Transaction → Option Transaction)
    (wPub : Bytes) (utxo : UTXOStore) (fromAddr toAddr : String) (amount : Int)
    (hsign : ∀ t t', signTx t = some t' → t'.outputs = t.outputs) :
    ((findSpendableOutputs utxo (P.hash160 wPub) amount).1 < amount →
        newTransaction P signTx wPub utxo fromAddr toAddr amount = none) ∧
    (∀ tx', newTransaction P signTx wPub utxo fromAddr toAddr amount = some tx' →
        tx'.outputs = newTXOutput P amount toAddr ::
          (if amount < (findSpendableOutputs utxo (P.hash160 wPub) amount).1 then
            [newTXOutput P ((findSpendableOutputs utxo (P.hash160 wPub) amount).1 - amount) fromAddr]
          else [])) := by
  constructor
  · intro hlt
    unfold newTransaction
    simp only []
    rw [if_pos hlt]
  · intro tx' h
    unfold newTransaction at h
    simp only [] at h
    split at h
    · exact absurd h (by simp)
    · have ho := hsign _ _ h
      rw [ho]
      simp [setID]

/-- Witness for C6: empty UTXO set, amount 0 — the sender can exactly cover
the amount, so the single output is the payment and there is no change. -/
theorem newtx_c6_outputs_witness :
    ((findSpendableOutputs [] (P0.hash160 [2]) 0).1 < 0 →
        newTransaction P0 some [2] [] "f" "t" 0 = none) ∧
    (∀ tx', newTransaction P0 some [2] [] "f" "t" 0 = some tx' →
        tx'.outputs = newTXOutput P0 0 "t" ::
          (if (0 : Int) < (findSpendableOutputs [] (P0.hash160 [2]) 0).1 then
            [newTXOutput P0 ((findSpendableOutputs [] (P0.hash160 [2]) 0).1 - 0) "f"]
          else [])) :=
  newtx_c6_outputs P0 some [2] [] "f" "t" 0 (fun t t' h => by cases h; rfl)

/-! ## C3 and C9: the network-facing AddBlock -/

theorem dbGet_dbSet (db : DB) (k v key : Bytes) :
    dbGet (dbSet db k v) key = if k = key then some v else dbGet db key := rfl

/-- C3: `AddBlock` of a block already in the store is a no-op (hence applying
it twice equals applying it once); for a new block the serialized block is
stored under its hash, and the `"lh"` tip pointer (and the in-memory tip) move
to the new hash exactly when the new height is strictly greater than the
deserialized current tip's height — equal heights leave both unchanged. -/
theorem addblock_c3_spec (ser : Block → Bytes) (deser : Bytes → Block)
    (st : ChainState) (b : Block) (lh tipData : Bytes)
    (hne : b.hash ≠ lhKey)
    (hlh : dbGet st.db lhKey = some lh)
    (htip : dbGet st.db lh = some tipData) :
    (∀ st0 : ChainState, ∀ v, dbGet st0.db b.hash = some v →
        addBlock ser deser st0 b = some st0) ∧
    (dbGet st.db b.hash = none →
      ∃ st', addBlock ser deser st b = some st' ∧
        dbGet st'.db b.hash = some (ser b) ∧
        addBlock ser deser st' b = some st' ∧
        (if (deser tipData).height < b.height then
          dbGet st'.db lhKey = some b.hash ∧ st'.lastHash = b.hash
        else
          dbGet st'.db lhKey = some lh ∧ st'.lastHash = st.lastHash)) := by
  constructor
  · intro st0 v hv
    unfold addBlock
    rw [hv]
  · intro hnew
    have hlhne : lh ≠ b.hash := by
      intro h
      rw [h] at htip
      rw [htip] at hnew
      exact Option.noConfusion hnew
    have h1 : dbGet (dbSet st.db b.hash (ser b)) lhKey = some lh := by
      rw [dbGet_dbSet, if_neg hne, hlh]
    have h2 : dbGet (dbSet st.db b.hash (ser b)) lh = some tipData := by
      rw [dbGet_dbSet, if_neg (fun h => hlhne h.symm), htip]
    by_cases hh : (deser tipData).height < b.height
    · refine ⟨{ lastHash := b.hash,
                db := dbSet (dbSet st.db b.hash (ser b)) lhKey b.hash }, ?_, ?_, ?_, ?_⟩
      · simp only [addBlock, hnew, h1, h2]
        rw [if_pos hh]
      · rw [dbGet_dbSet, if_neg (fun h => hne h.symm), dbGet_dbSet, if_pos rfl]
      · unfold addBlock
        rw [dbGet_dbSet, if_neg (fun h => hne h.symm), dbGet_dbSet, if_pos rfl]
      · rw [if_pos hh]
        exact ⟨by rw [dbGet_dbSet, if_pos rfl], rfl⟩
    · refine ⟨{ st with db := dbSet st.db b.hash (ser b) }, ?_, ?_, ?_, ?_⟩
      · simp only [addBlock, hnew, h1, h2]
        rw [if_neg hh]
      · rw [dbGet_dbSet, if_pos rfl]
      · unfold addBlock
        rw [dbGet_dbSet, if_pos rfl]
      · rw [if_neg hh]
        exact ⟨h1, rfl⟩

/-- Witness for C3: adding `blk1` (height 1 > tip height 0) to `st0`. -/
theorem addblock_c3_spec_witness :
    (∀ st0' : ChainState, ∀ v, dbGet st0'.db blk1.hash = some v →
        addBlock ser0 deser0 st0' blk1 = some st0') ∧
    (dbGet st0.db blk1.hash = none →
      ∃ st', addBlock ser0 deser0 st0 blk1 = some st' ∧
        dbGet st'.db blk1.hash = some (ser0 blk1) ∧
        addBlock ser0 deser0 st' blk1 = some st' ∧
        (if (deser0 (ser0 blk0)).height < blk1.height then
          dbGet st'.db lhKey = some blk1.hash ∧ st'.lastHash = blk1.hash
        else
          dbGet st'.db lhKey = some [1] ∧ st'.lastHash = st0.lastHash)) :=
  addblock_c3_spec ser0 deser0 st0 blk1 [1] (ser0 blk0)
    (by decide) (by decide) (by decide)

/-- C9: `AddBlock` persists any not-yet-present block unconditionally — the
serialized block lands in the store keyed by its hash — and the operation
reads nothing of the block beyond its hash, its height, and its
serialization: any two blocks agreeing on those three produce identical
results, so no Proof-of-Work check, signature check, or parent lookup can
influence storage. -/
theorem addblock_c9_unconditional (ser : Block → Bytes) (deser : Bytes → Block)
    (st : ChainState) (b : Block) (lh tipData : Bytes)
    (hnew : dbGet st.db b.hash = none)
    (hne : b.hash ≠ lhKey)
    (hlh : dbGet st.db lhKey = some lh)
    (htip : dbGet st.db lh = some tipData) :
    (∃ st', addBlock ser deser st b = some st' ∧
        dbGet st'.db b.hash = some (ser b)) ∧
    (∀ b2 : Block, b2.hash = b.hash → b2.height = b.height → ser b2 = ser b →
        addBlock ser deser st b2 = addBlock ser deser st b) := by
  constructor
  · have hlhne : lh ≠ b.hash := by
      intro h
      rw [h] at htip
      rw [htip] at hnew
      exact Option.noConfusion hnew
    have h1 : dbGet (dbSet st.db b.hash (ser b)) lhKey = some lh := by
      rw [dbGet_dbSet, if_neg hne, hlh]
    have h2 : dbGet (dbSet st.db b.hash (ser b)) lh = some tipData := by
      rw [dbGet_dbSet, if_neg (fun h => hlhne h.symm), htip]
    by_cases hh : (deser tipData).height < b.height
    · refine ⟨{ lastHash := b.hash,
                db := dbSet (dbSet st.db b.hash (ser b)) lhKey b.hash }, ?_, ?_⟩
      · simp only [addBlock, hnew, h1, h2]
        rw [if_pos hh]
      · rw [dbGet_dbSet, if_neg (fun h => hne h.symm), dbGet_dbSet, if_pos rfl]
    · refine ⟨{ st with db := dbSet st.db b.hash (ser b) }, ?_, ?_⟩
      · simp only [addBlock, hnew, h1, h2]
        rw [if_neg hh]
      · rw [dbGet_dbSet, if_pos rfl]
  · intro b2 hh hht hs
    unfold addBlock
    rw [hh, hht, hs]

/-- Witness for C9: `blk1` is stored in `st0` even though nothing validated
it, and the result is insensitive to every other field of the block. -/
theorem addblock_c9_unconditional_witness :
    (∃ st', addBlock ser0 deser0 st0 blk1 = some st' ∧
        dbGet st'.db blk1.hash = some (ser0 blk1)) ∧
    (∀ b2 : Block, b2.hash = blk1.hash → b2.height = blk1.height →
        ser0 b2 = ser0 blk1 →
        addBlock ser0 deser0 st0 b2 = addBlock ser0 deser0 st0 blk1) :=
  addblock_c9_unconditional ser0 deser0 st0 blk1 [1] (ser0 blk0)
    (by decide) (by decide) (by decide) (by decide)

/-! ## C7: coin selection -/

theorem selectionSum_selAdd (utxo : UTXOStore) (sel : List (Bytes × List Nat))
    (k : Bytes) (i : Nat) :
    selectionSum utxo (selAdd sel k i) = selectionSum utxo sel + valueAt utxo k i := by
  induction sel with
  | nil => simp [selAdd, selectionSum]
  | cons p rest ih =>
    obtain ⟨k', l⟩ := p
    by_cases h : k' = k
    · subst h
      simp [selAdd, selectionSum, List.map_append]
      ring
    · simp only [selAdd, if_neg h, selectionSum, List.map_cons, List.sum_cons] at ih ⊢
      omega

theorem lockedTotalIn_cons (pkh : Bytes) (o : TxOutput) (rest : List TxOutput) :
    lockedTotalIn pkh (o :: rest) =
      if isLockedWithKey o pkh then o.value + lockedTotalIn pkh rest
      else lockedTotalIn pkh rest := by
  by_cases h : isLockedWithKey o pkh <;>
    simp [lockedTotalIn, List.filter_cons, h]

/-- An entry of a UTXO store with pairwise-distinct keys is found by lookup. -/
theorem utxoGet_of_mem (utxo : UTXOStore)
    (hnodup : (utxo.map Prod.fst).Nodup) :
    ∀ p ∈ utxo, utxoGet utxo p.1 = some p.2 := by
  induction utxo with
  | nil => intro p hp; cases hp
  | cons q rest ih =>
    intro p hp
    rcases List.mem_cons.1 hp with hp | hp
    · subst hp
      unfold utxoGet
      rw [if_pos rfl]
    · unfold utxoGet
      have hk : q.1 ≠ p.1 := by
        intro hk
        have hmem : p.1 ∈ rest.map Prod.fst := List.mem_map_of_mem Prod.fst hp
        rw [← hk] at hmem
        exact (List.nodup_cons.1 (by simpa using hnodup)).1 hmem
      rw [if_neg hk]
      exact ih (List.nodup_cons.1 (by simpa using hnodup)).2 p hp

/-- Once the accumulator has reached the amount, the inner scan selects
nothing further. -/
theorem fsoOuts_of_ge (pkh : Bytes) (amount : Int) (txid : Bytes) :
    ∀ (l : List TxOutput) (idx : Nat) (acc : Int) (sel : List (Bytes × List Nat)),
      amount ≤ acc → fsoOuts pkh amount txid l idx acc sel = (acc, sel) := by
  intro l
  induction l with
  | nil => intro idx acc sel _; rfl
  | cons o rest ih =>
    intro idx acc sel h
    have hd : decide (acc < amount) = false := decide_eq_false (not_lt.2 h)
    unfold fsoOuts
    rw [hd, Bool.and_false, if_neg (by simp)]
    exact ih (idx + 1) acc sel h

/-- Saturation for the outer scan. -/
theorem fsoEntries_of_ge (pkh : Bytes) (amount : Int) :
    ∀ (entries : UTXOStore) (acc : Int) (sel : List (Bytes × List Nat)),
      amount ≤ acc → fsoEntries pkh amount entries acc sel = (acc, sel) := by
  intro entries
  induction entries with
  | nil => intro acc sel _; rfl
  | cons q rest ih =>
    intro acc sel h
    unfold fsoEntries
    rw [fsoOuts_of_ge pkh amount q.1 q.2 0 acc sel h]
    exact ih acc sel h

/-- The inner scan keeps the accumulator equal to the value of the selection:
each selected index points at the output whose value was just added. -/
theorem fsoOuts_sum (utxo : UTXOStore) (pkh : Bytes) (amount : Int)
    (txid : Bytes) (fullOuts : List TxOutput)
    (hget : utxoGet utxo txid = some fullOuts) :
    ∀ (l : List TxOutput) (idx : Nat) (acc : Int) (sel : List (Bytes × List Nat)),
      l = fullOuts.drop idx →
      selectionSum utxo sel = acc →
      selectionSum utxo (fsoOuts pkh amount txid l idx acc sel).2 =
        (fsoOuts pkh amount txid l idx acc sel).1 := by
  intro l
  induction l with
  | nil => intro idx acc sel _ hinv; simpa [fsoOuts] using hinv
  | cons o rest ih =>
    intro idx acc sel hdrop hinv
    have hrest : rest = fullOuts.drop (idx + 1) := by
      have h1 : fullOuts.drop (idx + 1) = (fullOuts.drop idx).drop 1 := by
        rw [List.drop_drop]
      rw [h1, ← hdrop, List.drop_one, List.tail_cons]
    have hgeto : fullOuts.get? idx = some o := by
      have h0 : (fullOuts.drop idx).get? 0 = fullOuts.get? (idx + 0) := by
        simp [List.getElem?_drop]
      rw [← hdrop] at h0
      simpa using h0.symm
    unfold fsoOuts
    by_cases hc : (isLockedWithKey o pkh && decide (acc < amount)) = true
    · rw [if_pos hc]
      apply ih (idx + 1) (acc + o.value) (selAdd sel txid idx) hrest
      rw [selectionSum_selAdd, hinv]
      simp only [valueAt, hget, hgeto]
    · rw [if_neg hc]
      exact ih (idx + 1) acc sel hrest hinv

/-- The outer scan keeps the accumulator equal to the value of the selection. -/
theorem fsoEntries_sum (utxo : UTXOStore) (pkh : Bytes) (amount : Int) :
    ∀ (entries : UTXOStore) (acc : Int) (sel : List (Bytes × List Nat)),
      (∀ p ∈ entries, utxoGet utxo p.1 = some p.2) →
      selectionSum utxo sel = acc →
      selectionSum utxo (fsoEntries pkh amount entries acc sel).2 =
        (fsoEntries pkh amount entries acc sel).1 := by
  intro entries
  induction entries with
  | nil => intro acc sel _ hinv; simpa [fsoEntries] using hinv
  | cons q rest ih =>
    intro acc sel hmem hinv
    unfold fsoEntries
    apply ih _ _ (fun p hp => hmem p (List.mem_cons_of_mem q hp))
    apply fsoOuts_sum utxo pkh amount q.1 q.2
      (hmem q (List.mem_cons_self q rest)) q.2 0 acc sel (List.drop_zero _).symm hinv

/-- Greedy completeness for the inner scan: the final accumulator has either
reached the amount, or every output of the list locked to the key was taken. -/
theorem fsoOuts_ge_or_total (pkh : Bytes) (amount : Int) (txid : Bytes) :
    ∀ (l : List TxOutput) (idx : Nat) (acc : Int) (sel : List (Bytes × List Nat)),
      amount ≤ (fsoOuts pkh amount txid l idx acc sel).1 ∨
      (fsoOuts pkh amount txid l idx acc sel).1 = acc + lockedTotalIn pkh l := by
  intro l
  induction l with
  | nil =>
    intro idx acc sel
    right
    simp [fsoOuts, lockedTotalIn]
  | cons o rest ih =>
    intro idx acc sel
    unfold fsoOuts
    by_cases hl : isLockedWithKey o pkh = true
    · by_cases ha : acc < amount
      · rw [if_pos (by simp [hl, ha])]
        rcases ih (idx + 1) (acc + o.value) (selAdd sel txid idx) with h | h
        · exact Or.inl h
        · right
          rw [h, lockedTotalIn_cons, if_pos hl]
          ring
      · rw [if_neg (by simp [ha]), fsoOuts_of_ge pkh amount txid rest (idx + 1) acc sel (not_lt.1 ha)]
        exact Or.inl (not_lt.1 ha)
    · rw [if_neg (by simp [hl])]
      rcases ih (idx + 1) acc sel with h | h
      · exact Or.inl h
      · right
        rw [h, lockedTotalIn_cons, if_neg hl]

/-- Greedy completeness for the outer scan. -/
theorem fsoEntries_ge_or_total (pkh : Bytes) (amount : Int) :
    ∀ (entries : UTXOStore) (acc : Int) (sel : List (Bytes × List Nat)),
      amount ≤ (fsoEntries pkh amount entries acc sel).1 ∨
      (fsoEntries pkh amount entries acc sel).1 =
        acc + (entries.map (fun p => lockedTotalIn pkh p.2)).sum := by
  intro entries
  induction entries with
  | nil =>
    intro acc sel
    right
    simp [fsoEntries]
  | cons q rest ih =>
    intro acc sel
    unfold fsoEntries
    rcases fsoOuts_ge_or_total pkh amount q.1 q.2 0 acc sel with h | h
    · left
      rw [fsoEntries_of_ge pkh amount rest _ _ h]
      exact h
    · rcases ih (fsoOuts pkh amount q.1 q.2 0 acc sel).1
        (fsoOuts pkh amount q.1 q.2 0 acc sel).2 with h2 | h2
      · exact Or.inl h2
      · right
        rw [h2, h]
        simp only [List.map_cons, List.sum_cons]
        ring

/-- C7: `FindSpendableOutputs(pkh, amount)` returns an accumulator equal to
the exact sum of the values of the selected outputs (keys of the UTXO region
are pairwise distinct, as badger keys are); the accumulator reaches `amount`
whenever the total value locked to `pkh` does; and for `amount = 0` the
result is `(0, empty)`. -/
theorem fso_c7_spec (utxo : UTXOStore) (pkh : Bytes) (amount : Int)
    (hnodup : (utxo.map Prod.fst).Nodup) :
    (findSpendableOutputs utxo pkh amount).1 =
        selectionSum utxo (findSpendableOutputs utxo pkh amount).2 ∧
    (amount ≤ lockedTotal utxo pkh →
        amount ≤ (findSpendableOutputs utxo pkh amount).1) ∧
    findSpendableOutputs utxo pkh 0 = (0, []) := by
  refine ⟨?_, ?_, ?_⟩
  · exact (fsoEntries_sum utxo pkh amount utxo 0 []
      (utxoGet_of_mem utxo hnodup) rfl).symm
  · intro htot
    rcases fsoEntries_ge_or_total pkh amount utxo 0 [] with h | h
    · exact h
    · unfold findSpendableOutputs
      rw [h]
      unfold lockedTotal at htot
      omega
  · exact fsoEntries_of_ge pkh 0 utxo 0 [] le_rfl

/-- Witness for C7 at a concrete store, key hash `[9]` and amount 8. -/
theorem fso_c7_spec_witness :
    (findSpendableOutputs utxo1 [9] 8).1 =
        selectionSum utxo1 (findSpendableOutputs utxo1 [9] 8).2 ∧
    ((8 : Int) ≤ lockedTotal utxo1 [9] →
        (8 : Int) ≤ (findSpendableOutputs utxo1 [9] 8).1) ∧
    findSpendableOutputs utxo1 [9] 0 = (0, []) :=
  fso_c7_spec utxo1 [9] 8 (by decide)

/-! ## C8: Sign writes only input signatures -/

theorem listModify_length (f : α → α) (l : List α) (n : Nat) :
    (listModify f l n).length = l.length := by
  induction l generalizing n with
  | nil => rfl
  | cons a rest ih =>
    cases n with
    | zero => rfl
    | succ m => simp [listModify, ih]

theorem listModify_get? (f : α → α) (l : List α) (n m : Nat) :
    (listModify f l n).get? m =
      if m = n then (l.get? n).map f else l.get? m := by
  induction l generalizing n m with
  | nil => simp [listModify]
  | cons a rest ih =>
    cases n with
    | zero =>
      cases m with
      | zero => simp [listModify]
      | succ j => simp [listModify]
    | succ n' =>
      cases m with
      | zero => simp [listModify]
      | succ j =>
        simp only [listModify, List.get?_cons_succ, ih, Nat.succ_eq_add_one]
        by_cases h : j = n' <;> simp [h]

theorem txModInput_id (tx : Transaction) (n : Nat) (f : TxInput → TxInput) :
    (txModInput tx n f).id = tx.id := rfl

theorem txModInput_outputs (tx : Transaction) (n : Nat) (f : TxInput → TxInput) :
    (txModInput tx n f).outputs = tx.outputs := rfl

/-- The trimmed copy's input list at an index. -/
theorem trimmedCopy_inputs_get? (tx : Transaction) (n : Nat) :
    (trimmedCopy tx).inputs.get? n = (tx.inputs.get? n).map
      (fun i => ({ id := i.id, out := i.out, signature := [], pubKey := [] } : TxInput)) := by
  show (tx.inputs.map _).get? n = _
  simp [List.getElem?_map]

/-- The frame of the `Sign` loop: whatever the loop returns agrees with the
threaded original transaction everywhere except possibly input signatures. -/
theorem signLoop_frame (P : Prims) (prevs : Bytes → Transaction) :
    ∀ (k n : Nat) (c cur r : Transaction),
      signLoop P prevs k n c cur = some r →
      r.id = cur.id ∧ r.outputs = cur.outputs ∧
      r.inputs.length = cur.inputs.length ∧
      (∀ m i i', cur.inputs.get? m = some i → r.inputs.get? m = some i' →
        i'.id = i.id ∧ i'.out = i.out ∧ i'.pubKey = i.pubKey) := by
  intro k
  induction k with
  | zero =>
    intro n c cur r h
    unfold signLoop at h
    cases h
    refine ⟨rfl, rfl, rfl, fun m i i' h1 h2 => ?_⟩
    rw [h1] at h2
    cases h2
    exact ⟨rfl, rfl, rfl⟩
  | succ k ih =>
    intro n c cur r h
    unfold signLoop at h
    rcases hci : c.inputs.get? n with _ | i
    · rw [hci] at h
      simp only [] at h
      cases h
      refine ⟨rfl, rfl, rfl, fun m i i' h1 h2 => ?_⟩
      rw [h1] at h2
      cases h2
      exact ⟨rfl, rfl, rfl⟩
    · rw [hci] at h
      simp only [] at h
      rcases hgo : (prevs i.id).outputs.get? i.out.toNat with _ | o
      · rw [hgo] at h
        exact absurd h (by simp)
      · rw [hgo] at h
        simp only [] at h
        by_cases hneg : i.out < 0
        · rw [if_pos hneg] at h
          exact absurd h (by simp)
        · rw [if_neg hneg] at h
          have hrec := ih _ _ _ _ h
          obtain ⟨hid, hout, hlen, hget⟩ := hrec
          refine ⟨hid, hout, ?_, ?_⟩
          · rw [hlen]
            exact listModify_length _ _ _
          · intro m j j' h1 h2
            have hcur1 : (txModInput cur n
                (fun j => { j with signature := P.mkSig n (txHash P (txModInput c n
                  (fun j => { j with signature := [], pubKey := o.pubKeyHash }))) })).inputs.get? m =
                some (if m = n
                  then { j with signature := P.mkSig n (txHash P (txModInput c n
                    (fun j => { j with signature := [], pubKey := o.pubKeyHash }))) }
                  else j) := by
              show (listModify _ cur.inputs n).get? m = _
              rw [listModify_get?]
              by_cases hm : m = n
              · subst hm
                rw [if_pos rfl, if_pos rfl, h1]
                rfl
              · rw [if_neg hm, if_neg hm, h1]
            have := hget m _ j' hcur1 h2
            by_cases hm : m = n
            · simp only [hm, if_pos rfl] at this
              exact this
            · simp only [if_neg hm] at this
              exact this

/-- Totality of the `Sign` loop under the validity hypotheses: the copied
inputs keep the original IDs and output indices, so every iteration finds its
previous output and no panic arises. -/
theorem signLoop_total (P : Prims) (prevs : Bytes → Transaction) (tx : Transaction)
    (hidx : ∀ i ∈ tx.inputs, 0 ≤ i.out ∧ i.out.toNat < (prevs i.id).outputs.length) :
    ∀ (k n : Nat) (c cur : Transaction),
      k + n = c.inputs.length →
      (∀ m j, c.inputs.get? m = some j →
        ∃ j0, tx.inputs.get? m = some j0 ∧ j.id = j0.id ∧ j.out = j0.out) →
      ∃ r, signLoop P prevs k n c cur = some r := by
  intro k
  induction k with
  | zero =>
    intro n c cur _ _
    exact ⟨cur, rfl⟩
  | succ k ih =>
    intro n c cur hlen hinv
    rcases hci : c.inputs.get? n with _ | i
    · rw [List.get?_eq_none] at hci
      omega
    · obtain ⟨i0, hi0, hid, hout⟩ := hinv n i hci
      have hmem : i0 ∈ tx.inputs := List.get?_mem hi0
      obtain ⟨hnn, hlt⟩ := hidx i0 hmem
      rcases hgo : (prevs i.id).outputs.get? i.out.toNat with _ | o
      · rw [List.get?_eq_none, hid, hout] at hgo
        omega
      · have hneg : ¬(i.out < 0) := by
          rw [hout]
          omega
        have hstep : ∃ r, signLoop P prevs k (n + 1)
            (txModInput { txModInput c n
                (fun j => { j with signature := [], pubKey := o.pubKeyHash }) with
              id := txHash P (txModInput c n
                (fun j => { j with signature := [], pubKey := o.pubKeyHash })) } n
              (fun j => { j with pubKey := [] }))
            (txModInput cur n
              (fun j => { j with signature := P.mkSig n (txHash P (txModInput c n
                (fun j => { j with signature := [], pubKey := o.pubKeyHash }))) })) = some r := by
          apply ih
          · show k + (n + 1) = (listModify _ (listModify _ c.inputs n) n).length
            rw [listModify_length, listModify_length]
            omega
          · intro m j hj
            have hj' : (listModify (fun j => { j with pubKey := [] })
                (listModify (fun j => { j with signature := [], pubKey := o.pubKeyHash })
                  c.inputs n) n).get? m = some j := hj
            rw [listModify_get?] at hj'
            by_cases hm : m = n
            · rw [if_pos hm, listModify_get?, if_pos rfl, hci] at hj'
              simp only [Option.map_some'] at hj'
              cases hj'
              subst hm
              exact ⟨i0, hi0, hid, hout⟩
            · rw [if_neg hm, listModify_get?, if_neg hm] at hj'
              exact hinv m j hj'
        obtain ⟨r, hr⟩ := hstep
        refine ⟨r, ?_⟩
        unfold signLoop
        rw [hci]
        simp only []
        rw [hgo]
        simp only []
        rw [if_neg hneg]
        exact hr

/-- C8: for a transaction whose referenced previous transactions are present
and whose input indices are in range, `Transaction.Sign` succeeds and mutates
nothing but input signatures: the ID, every input's previous-transaction ID,
output index and public key, and all outputs are unchanged. -/
theorem sign_c8_frame (P : Prims) (prevs : Bytes → Transaction) (tx : Transaction)
    (hprev : ∀ i ∈ tx.inputs, ((prevs i.id).id).isEmpty = false)
    (hidx : ∀ i ∈ tx.inputs, 0 ≤ i.out ∧ i.out.toNat < (prevs i.id).outputs.length) :
    ∃ tx', transactionSign P tx prevs = some tx' ∧
      tx'.id = tx.id ∧ tx'.outputs = tx.outputs ∧
      tx'.inputs.length = tx.inputs.length ∧
      (∀ m i i', tx.inputs.get? m = some i → tx'.inputs.get? m = some i' →
        i'.id = i.id ∧ i'.out = i.out ∧ i'.pubKey = i.pubKey) := by
  unfold transactionSign
  by_cases hcb : isCoinbase tx = true
  · rw [if_pos hcb]
    refine ⟨tx, rfl, rfl, rfl, rfl, fun m i i' h1 h2 => ?_⟩
    rw [h1] at h2
    cases h2
    exact ⟨rfl, rfl, rfl⟩
  · rw [if_neg hcb]
    have hany : (tx.inputs.any fun i => ((prevs i.id).id).isEmpty) = false := by
      rw [List.any_eq_false]
      intro i hi
      rw [hprev i hi]
      exact Bool.false_ne_true
    rw [hany, if_neg (by simp)]
    have hinv : ∀ m j, (trimmedCopy tx).inputs.get? m = some j →
        ∃ j0, tx.inputs.get? m = some j0 ∧ j.id = j0.id ∧ j.out = j0.out := by
      intro m j hj
      rw [trimmedCopy_inputs_get?] at hj
      rcases hm : tx.inputs.get? m with _ | j0
      · rw [hm] at hj
        exact absurd hj (by simp)
      · rw [hm] at hj
        cases hj
        exact ⟨j0, rfl, rfl, rfl⟩
    obtain ⟨r, hr⟩ := signLoop_total P prevs tx hidx
      (trimmedCopy tx).inputs.length 0 (trimmedCopy tx) tx (by omega) hinv
    obtain ⟨hid, hout, hlen, hget⟩ := signLoop_frame P prevs _ _ _ _ _ hr
    exact ⟨r, hr, hid, hout, hlen, hget⟩

/-- Witness for C8: a concrete one-input transaction spending `prevTxA`. -/
theorem sign_c8_frame_witness :
    ∃ tx', transactionSign P0 tx1 prevs0 = some tx' ∧
      tx'.id = tx1.id ∧ tx'.outputs = tx1.outputs ∧
      tx'.inputs.length = tx1.inputs.length ∧
      (∀ m i i', tx1.inputs.get? m = some i → tx'.inputs.get? m = some i' →
        i'.id = i.id ∧ i'.out = i.out ∧ i'.pubKey = i.pubKey) :=
  sign_c8_frame P0 prevs0 tx1 (by decide) (by decide)

/-! ## C4: Verify -/

theorem listModify_listModify (g f : α → α) (l : List α) (n : Nat) :
    listModify g (listModify f l n) n = listModify (fun a => g (f a)) l n := by
  induction l generalizing n with
  | nil => rfl
  | cons a rest ih =>
    cases n with
    | zero => rfl
    | succ m => simp [listModify, ih]

theorem listModify_congr (f g : α → α) (l : List α) (n : Nat)
    (h : ∀ a, l.get? n = some a → f a = g a) : listModify f l n = listModify g l n := by
  induction l generalizing n with
  | nil => rfl
  | cons a rest ih =>
    cases n with
    | zero =>
      simp only [listModify]
      rw [h a rfl]
    | succ m =>
      simp only [listModify]
      rw [ih m (fun b hb => h b hb)]

theorem listModify_eq_self (f : α → α) (l : List α) (n : Nat)
    (h : ∀ a, l.get? n = some a → f a = a) : listModify f l n = l := by
  induction l generalizing n with
  | nil => rfl
  | cons a rest ih =>
    cases n with
    | zero =>
      simp only [listModify]
      rw [h a rfl]
    | succ m =>
      simp only [listModify]
      rw [ih m (fun b hb => h b hb)]

/-- The transaction hash only reads the inputs and outputs (the ID field is
cleared before serializing). -/
theorem txHash_congr (P : Prims) (t t' : Transaction)
    (hi : t.inputs = t'.inputs) (ho : t.outputs = t'.outputs) :
    txHash P t = txHash P t' := by
  unfold txHash
  rw [show ({ t with id := [] } : Transaction) = { t' with id := [] } by
    cases t; cases t'; simp only at hi ho; simp [hi, ho]]

/-- The `Verify` loop computes exactly the conjunction of the per-input
specification checks: the threaded copy stays equal to the trimmed copy at
the start of each iteration, so each iteration's digest is the signing hash
of that input. -/
theorem verifyLoop_eq (P : Prims) (prevs : Bytes → Transaction) (tx : Transaction)
    (hidx : ∀ i ∈ tx.inputs, 0 ≤ i.out ∧ i.out.toNat < (prevs i.id).outputs.length) :
    ∀ (k n : Nat) (c : Transaction),
      k + n = tx.inputs.length →
      c.inputs = (trimmedCopy tx).inputs →
      c.outputs = (trimmedCopy tx).outputs →
      verifyLoop P prevs tx k n c = some (allVerifyFrom P prevs tx k n) := by
  intro k
  induction k with
  | zero => intro n c _ _ _; rfl
  | succ k ih =>
    intro n c hlen hci hco
    have hn : n < tx.inputs.length := by omega
    rcases hgn : tx.inputs.get? n with _ | i
    · rw [List.get?_eq_none] at hgn
      omega
    · have hmem : i ∈ tx.inputs := List.get?_mem hgn
      obtain ⟨hnn, hlt⟩ := hidx i hmem
      rcases hgo : (prevs i.id).outputs.get? i.out.toNat with _ | o
      · rw [List.get?_eq_none] at hgo
        omega
      · have htrimn : (trimmedCopy tx).inputs.get? n =
            some { id := i.id, out := i.out, signature := [], pubKey := [] } := by
          rw [trimmedCopy_inputs_get?, hgn]
          rfl
        have hdig : txHash P (txModInput c n
            (fun j => { j with signature := [], pubKey := o.pubKeyHash })) =
            signingHash P tx n o.pubKeyHash := by
          unfold signingHash
          apply txHash_congr
          · show listModify _ c.inputs n = listModify _ (trimmedCopy tx).inputs n
            rw [hci]
            apply listModify_congr
            intro a ha
            rw [htrimn] at ha
            cases ha
            rfl
          · show c.outputs = (trimmedCopy tx).outputs
            exact hco
        have hiv : inputVerifies P prevs tx i n =
            P.ecdsaVerify (bytesToNat (i.pubKey.take (i.pubKey.length / 2)))
              (bytesToNat (i.pubKey.drop (i.pubKey.length / 2)))
              (signingHash P tx n o.pubKeyHash)
              (bytesToNat (i.signature.take (i.signature.length / 2)))
              (bytesToNat (i.signature.drop (i.signature.length / 2))) := by
          unfold inputVerifies
          rw [hgo]
        have hrhs : allVerifyFrom P prevs tx (k + 1) n =
            (inputVerifies P prevs tx i n && allVerifyFrom P prevs tx k (n + 1)) := by
          conv_lhs => rw [allVerifyFrom]
          rw [hgn]
        unfold verifyLoop
        rw [hgn]
        simp only []
        rw [hgo]
        simp only []
        rw [if_neg (not_lt.2 hnn), hdig, hrhs]
        by_cases hv : P.ecdsaVerify (bytesToNat (i.pubKey.take (i.pubKey.length / 2)))
            (bytesToNat (i.pubKey.drop (i.pubKey.length / 2)))
            (signingHash P tx n o.pubKeyHash)
            (bytesToNat (i.signature.take (i.signature.length / 2)))
            (bytesToNat (i.signature.drop (i.signature.length / 2))) = true
        · rw [if_pos hv, hiv, hv, Bool.true_and]
          apply ih (n + 1) _ (by omega)
          · show listModify _ (listModify _ c.inputs n) n = (trimmedCopy tx).inputs
            rw [listModify_listModify, hci]
            apply listModify_eq_self
            intro a ha
            rw [htrimn] at ha
            cases ha
            rfl
          · exact hco
        · rw [if_neg hv, hiv]
          rw [Bool.not_eq_true] at hv
          rw [hv, Bool.false_and]

/-- `allVerifyFrom` is the bounded universal of the per-input checks. -/
theorem allVerifyFrom_iff (P : Prims) (prevs : Bytes → Transaction)
    (tx : Transaction) :
    ∀ (k n : Nat), (allVerifyFrom P prevs tx k n = true ↔
      ∀ m i, n ≤ m → m < n + k → tx.inputs.get? m = some i →
        inputVerifies P prevs tx i m = true) := by
  intro k
  induction k with
  | zero =>
    intro n
    constructor
    · intro _ m i h1 h2 _
      omega
    · intro _
      rfl
  | succ k ih =>
    intro n
    unfold allVerifyFrom
    rcases hgn : tx.inputs.get? n with _ | i
    · have hlen : tx.inputs.length ≤ n := List.get?_eq_none.1 hgn
      constructor
      · intro _ m j hm1 _ hgm
        have : tx.inputs.length ≤ m := le_trans hlen hm1
        rw [List.get?_eq_none.2 this] at hgm
        exact Option.noConfusion hgm
      · intro _
        rfl
    · rw [Bool.and_eq_true, ih (n + 1)]
      constructor
      · rintro ⟨h1, h2⟩ m j hm1 hm2 hgm
        by_cases hm : m = n
        · subst hm
          rw [hgn] at hgm
          cases hgm
          exact h1
        · exact h2 m j (by omega) (by omega) hgm
      · intro h
        exact ⟨h n i le_rfl (by omega) hgn,
          fun m j hm1 hm2 hgm => h m j (by omega) (by omega) hgm⟩

/-- C4: `Transaction.Verify` returns `true` for every coinbase transaction
unconditionally; for a non-coinbase transaction whose referenced previous
transactions are all present (and whose input indices are in range, so the
reconstruction is defined), it returns a boolean, and that boolean is `true`
iff every input's ECDSA signature verifies against the hash of the trimmed
copy reconstructed with that input's previous output `PubKeyHash` — one
failing input makes the whole transaction invalid. -/
theorem verify_c4_spec (P : Prims) (prevs : Bytes → Transaction) (tx : Transaction)
    (hidx : isCoinbase tx = false →
      ∀ i ∈ tx.inputs, 0 ≤ i.out ∧ i.out.toNat < (prevs i.id).outputs.length)
    (hprev : isCoinbase tx = false →
      ∀ i ∈ tx.inputs, ((prevs i.id).id).isEmpty = false) :
    (isCoinbase tx = true → transactionVerify P tx prevs = some true) ∧
    (isCoinbase tx = false →
      (∃ bv, transactionVerify P tx prevs = some bv) ∧
      (transactionVerify P tx prevs = some true ↔
        ∀ m i, tx.inputs.get? m = some i →
          inputVerifies P prevs tx i m = true)) := by
  constructor
  · intro hcb
    unfold transactionVerify
    rw [if_pos hcb]
  · intro hcb
    unfold transactionVerify
    rw [if_neg (by rw [hcb]; exact Bool.false_ne_true)]
    have hany : (tx.inputs.any fun i => ((prevs i.id).id).isEmpty) = false := by
      rw [List.any_eq_false]
      intro i hi
      rw [hprev hcb i hi]
      exact Bool.false_ne_true
    rw [hany, if_neg (by simp)]
    rw [verifyLoop_eq P prevs tx (hidx hcb) tx.inputs.length 0 (trimmedCopy tx)
      (by omega) rfl rfl]
    refine ⟨⟨_, rfl⟩, ?_⟩
    rw [Option.some_inj, allVerifyFrom_iff]
    constructor
    · intro h m i hgm
      have hml : m < tx.inputs.length := by
        rcases List.get?_eq_some.1 hgm with ⟨hm, _⟩
        exact hm
      exact h m i (Nat.zero_le m) (by omega) hgm
    · intro h m i _ _ hgm
      exact h m i hgm

/-- Witness for C4: the concrete one-input transaction `tx1` with its
previous transaction present in `prevs0` and index 0 in range. -/
theorem verify_c4_spec_witness :
    (isCoinbase tx1 = true → transactionVerify P0 tx1 prevs0 = some true) ∧
    (isCoinbase tx1 = false →
      (∃ bv, transactionVerify P0 tx1 prevs0 = some bv) ∧
      (transactionVerify P0 tx1 prevs0 = some true ↔
        ∀ m i, tx1.inputs.get? m = some i →
          inputVerifies P0 prevs0 tx1 i m = true)) :=
  verify_c4_spec P0 prevs0 tx1 (by decide) (by decide)

end GoChain
